import Mathlib

set_option maxHeartbeats 1000000

/-
Shallow embedding of the FileNest repository: the organize-and-watch engine in
Code/file_organizer.py (CLI variant) and the organizer functions of Code/app.py
(web-dashboard variant).  Filenames are Lean `String`s, directories are lists
of entries, and every function below is translated line by line from the
Python source; comments cite the source lines.
-/

/-! ### Decimal rendering of the conflict counter

Python renders the counter in `generate_unique_filename` with an f-string,
which produces the standard decimal numeral of the integer.  `decChars` is
that numeral as a list of characters; the fuel argument bounds the number of
division steps and `n + 1` always suffices. -/

def digitChar (n : Nat) : Char := Char.ofNat (48 + n)

def decChars : Nat → Nat → List Char
  | 0, _ => []
  | fuel + 1, n =>
    if n < 10 then [digitChar n] else decChars fuel (n / 10) ++ [digitChar (n % 10)]

/-- Decimal numeral of `n`, as produced by Python's `str`/f-string. -/
def pyStr (n : Nat) : String := ⟨decChars (n + 1) n⟩

def digitVal (c : Char) : Nat := c.toNat - 48

def fromDec (l : List Char) : Nat := l.foldl (fun a c => 10 * a + digitVal c) 0

theorem digitVal_digitChar (n : Nat) (h : n < 10) : digitVal (digitChar n) = n := by
  interval_cases n <;> decide

theorem fromDec_append_digit (l : List Char) (c : Char) :
    fromDec (l ++ [c]) = 10 * fromDec l + digitVal c := by
  simp [fromDec, List.foldl_append]

theorem fromDec_decChars : ∀ fuel n : Nat, n < fuel → fromDec (decChars fuel n) = n := by
  intro fuel
  induction fuel with
  | zero => intro n h; omega
  | succ fuel ih =>
    intro n h
    by_cases h10 : n < 10
    · simp [decChars, h10, fromDec, digitVal_digitChar n h10]
    · have hpos : 0 < n := by omega
      have hlt : n / 10 < n := Nat.div_lt_self hpos (by omega)
      have hd : n / 10 < fuel := by omega
      rw [decChars, if_neg h10, fromDec_append_digit, ih _ hd,
        digitVal_digitChar (n % 10) (by omega)]
      omega

theorem pyStr_inj : Function.Injective pyStr := by
  intro a b h
  have hd : decChars (a + 1) a = decChars (b + 1) b := congrArg String.data h
  have := congrArg fromDec hd
  rwa [fromDec_decChars _ _ (by omega), fromDec_decChars _ _ (by omega)] at this

/-! ### Python `pathlib` stem and suffix

CPython's `PurePath.suffix` takes `i = name.rfind('.')` and returns `name[i:]`
when `0 < i < len(name) - 1`, else the empty string; `stem` is the matching
front part.  `rlastIdx` returns the index of the last occurrence of a
character. -/

def rlastIdx : List Char → Char → Option Nat
  | [], _ => none
  | a :: as, c =>
    match rlastIdx as c with
    | some i => some (i + 1)
    | none => if a = c then some 0 else none

def pySuffix (s : String) : String :=
  match rlastIdx s.data '.' with
  | some i => if 0 < i ∧ i + 1 < s.data.length then ⟨s.data.drop i⟩ else ""
  | none => ""

def pyStem (s : String) : String :=
  match rlastIdx s.data '.' with
  | some i => if 0 < i ∧ i + 1 < s.data.length then ⟨s.data.take i⟩ else s
  | none => s

/-- Python `str.lower()` (ASCII case folding, applied per character); written
on the character list so that it evaluates by kernel reduction. -/
def pyLower (s : String) : String := ⟨s.data.map Char.toLower⟩

/-- Python `name.startswith('.')`. -/
def startsWithDot (s : String) : Bool :=
  match s.data with
  | [] => false
  | c :: _ => c = '.'

/-! ### Category configuration

`FILE_EXTENSION_MAP` is the table at file_organizer.py lines 29-37; the web
variant at app.py lines 17-24 omits the `Executables` row.  The reverse index
is built exactly as the Python loop does (lines 40-43 resp. 26-29): repeated
dict assignment keyed on the lowercased extension. -/

def FILE_EXTENSION_MAP : List (String × List String) :=
  [("Images", [".jpg", ".jpeg", ".png", ".gif", ".bmp", ".svg", ".webp", ".ico", ".tiff",
      ".tif", ".raw", ".psd", ".ai"]),
   ("Documents", [".pdf", ".doc", ".docx", ".txt", ".rtf", ".odt", ".xls", ".xlsx", ".ppt",
      ".pptx", ".csv", ".md", ".epub"]),
   ("Audio", [".mp3", ".wav", ".flac", ".aac", ".ogg", ".wma", ".m4a", ".opus", ".aiff"]),
   ("Videos", [".mp4", ".avi", ".mkv", ".mov", ".wmv", ".flv", ".webm", ".m4v", ".mpeg",
      ".mpg", ".3gp"]),
   ("Archives", [".zip", ".rar", ".7z", ".tar", ".gz", ".bz2", ".xz", ".iso"]),
   ("Code", [".py", ".js", ".java", ".c", ".cpp", ".h", ".cs", ".php", ".rb", ".go", ".rs",
      ".swift", ".kt", ".html", ".css", ".json", ".xml", ".yaml", ".yml"]),
   ("Executables", [".exe", ".msi", ".dmg", ".app", ".deb", ".rpm", ".sh", ".bat", ".cmd"])]

def FILE_EXTENSION_MAP_WEB : List (String × List String) :=
  FILE_EXTENSION_MAP.filter (fun p => p.1 ≠ "Executables")

/-- Python dict assignment `m[k] = v`: replace the binding if the key is
present, otherwise append it. -/
def pyDictInsert (m : List (String × String)) (k v : String) : List (String × String) :=
  match m with
  | [] => [(k, v)]
  | (k', v') :: rest => if k' = k then (k, v) :: rest else (k', v') :: pyDictInsert rest k v

def buildIndex (tbl : List (String × List String)) : List (String × String) :=
  tbl.foldl (fun m p => p.2.foldl (fun m e => pyDictInsert m (pyLower e) p.1) m) []

def EXTENSION_TO_CATEGORY : List (String × String) := buildIndex FILE_EXTENSION_MAP

def EXTENSION_TO_CATEGORY_WEB : List (String × String) := buildIndex FILE_EXTENSION_MAP_WEB

/-- Python `dict.get(k, d)`. -/
def pyGet (m : List (String × String)) (k d : String) : String :=
  match m.lookup k with
  | some v => v
  | none => d

/-- file_organizer.py lines 50-61. -/
def get_category_for_file (filename : String) : String :=
  pyGet EXTENSION_TO_CATEGORY (pyLower (pySuffix filename)) "Others"

/-- app.py lines 50-53 (same body, web extension table). -/
def get_category_for_file_web (filename : String) : String :=
  pyGet EXTENSION_TO_CATEGORY_WEB (pyLower (pySuffix filename)) "Others"

/-! ### Unique namer

file_organizer.py lines 64-92 and the identical copy at app.py lines 56-72.
The directory is abstracted to the list of entry names the existence checks
can see.  The Python `while True` loop returns the candidate
`f"{name}({counter}){extension}"` for the first counter, starting at 1, whose
candidate does not exist; `findFree` performs the same ascending probe with a
fuel bound, and `dir.length + 1` probes always suffice because the candidates
are pairwise distinct (proved below). -/

def mkCandOf (f : String) (k : Nat) : String :=
  pyStem f ++ "(" ++ pyStr k ++ ")" ++ pySuffix f

def findFree (dir : List String) (f : String) : Nat → Nat → Option String
  | 0, _ => none
  | fuel + 1, c =>
    if mkCandOf f c ∈ dir then findFree dir f fuel (c + 1) else some (mkCandOf f c)

def generate_unique_filename (dir : List String) (filename : String) : String :=
  if filename ∈ dir then (findFree dir filename (dir.length + 1) 1).getD filename
  else filename

/-! ### Filesystem model

The engine only ever touches the watched directory and its immediate
subdirectories: it lists the root, tests entries for existence / file / dir,
creates category folders at the root, and moves root files into them.  So a
filesystem state is the optional root directory (`none` = the watch directory
does not exist), a directory is a list of entries in listing order, and a
subdirectory carries just the names of its members.  Absolute paths of
root-level entries are identified with their base names (the watch-directory
prefix is common to all of them). -/

inductive FSEntry where
  | file (name : String)
  | dir (name : String) (contents : List String)
deriving DecidableEq

def FSEntry.name : FSEntry → String
  | .file n => n
  | .dir n _ => n

def FSEntry.isFile : FSEntry → Bool
  | .file _ => true
  | .dir _ _ => false

abbrev Dir := List FSEntry

abbrev FS := Option Dir

/-- Model of `os.listdir(watch_directory)`. -/
def FS.names : FS → List String
  | none => []
  | some d => d.map FSEntry.name

/-- Model of `os.path.exists(watch_directory/n)`. -/
def FS.existsRoot (fs : FS) (n : String) : Bool :=
  match fs with
  | none => false
  | some d => d.any (fun e => e.name = n)

/-- Model of `os.path.isdir(watch_directory/n)`. -/
def FS.isdir (fs : FS) (n : String) : Bool :=
  match fs with
  | none => false
  | some d =>
    match d.find? (fun e => e.name = n) with
    | some (.dir _ _) => true
    | _ => false

/-- Model of `os.path.isfile(watch_directory/n)`. -/
def FS.isfile (fs : FS) (n : String) : Bool :=
  match fs with
  | none => false
  | some d =>
    match d.find? (fun e => e.name = n) with
    | some (.file _) => true
    | _ => false

/-- Names visible inside `watch_directory/n`; empty when `n` is absent or is a
plain file, matching the `exists()` probes of the unique namer. -/
def FS.subNames (fs : FS) (n : String) : List String :=
  match fs with
  | none => []
  | some d =>
    match d.find? (fun e => e.name = n) with
    | some (.dir _ cs) => cs
    | _ => []

/-- Model of `os.makedirs(watch_directory/n)`: creates the watch directory as well when
it is missing.  Only called behind an existence check in the source. -/
def FS.makedirs (fs : FS) (n : String) : FS :=
  some ((fs.getD []) ++ [.dir n []])

def removeFirst (d : Dir) (n : String) : Dir :=
  match d with
  | [] => []
  | e :: es => if e.name = n then es else e :: removeFirst es n

def modifyFirst (d : Dir) (n : String) (g : FSEntry → FSEntry) : Dir :=
  match d with
  | [] => []
  | e :: es => if e.name = n then g e :: es else e :: modifyFirst es n g

def addFileInto (d : Dir) (c fname : String) : Dir :=
  modifyFirst d c (fun e =>
    match e with
    | .dir cn cs => .dir cn (cs ++ [fname])
    | x => x)

/-- Model of `shutil.move(watch/src, watch/cdir/fname)`: succeeds when `src` is an
existing root file and `cdir` an existing root directory, and fails (raising,
which the callers catch) when the source vanished or the destination parent
is not a directory. -/
def FS.moveIntoDir (fs : FS) (src cdir fname : String) : Option FS :=
  match fs with
  | none => none
  | some d =>
    if FS.isfile (some d) src && FS.isdir (some d) cdir then
      some (some (addFileInto (removeFirst d src) cdir fname))
    else none

/-! ### CLI organizer (file_organizer.py) -/

def SCRIPT_NAME : String := "file_organizer.py"

/-- Ghost tag recording which branch of `organize_file` produced the outcome;
the Python function communicates only the `Bool`. -/
inductive StepKind where
  | movedOk | moveFailed | skipScript | skipDir | dryReport
deriving DecidableEq

structure FileOut where
  moved : Bool
  fs : FS
  kind : StepKind
deriving DecidableEq

/-- file_organizer.py lines 109-161.  The self-protection check (line 125)
runs first, then the directory skip (line 130); the destination folder is
created (lines 143-144) before the `dry_run` test (line 151), and a dry run
returns `True` just as a real move does. -/
def organize_file (fs : FS) (filename : String) (dryRun : Bool) : FileOut :=
  if filename = SCRIPT_NAME then ⟨false, fs, .skipScript⟩
  else if fs.isdir filename then ⟨false, fs, .skipDir⟩
  else
    let category := get_category_for_file filename
    let fs₁ := if fs.existsRoot category then fs else fs.makedirs category
    let uniq := generate_unique_filename (fs₁.subNames category) filename
    if dryRun then ⟨true, fs₁, .dryReport⟩
    else
      match fs₁.moveIntoDir filename category uniq with
      | some fs₂ => ⟨true, fs₂, .movedOk⟩
      | none => ⟨false, fs₁, .moveFailed⟩

structure CliOut where
  count : Nat
  fs : FS
  log : List (String × StepKind)
deriving DecidableEq

def cliStep (dryRun : Bool) (acc : CliOut) (n : String) : CliOut :=
  let r := organize_file acc.fs n dryRun
  ⟨acc.count + (if r.moved then 1 else 0), r.fs, acc.log ++ [(n, r.kind)]⟩

/-- file_organizer.py lines 164-200: snapshot listing, per-entry call,
returns the number of files for which `organize_file` returned `True`; a
missing directory aborts with 0.  The `log` field is ghost instrumentation. -/
def organize_directory (fs : FS) (dryRun : Bool) : CliOut :=
  match fs with
  | none => ⟨0, none, []⟩
  | some d => (d.map FSEntry.name).foldl (cliStep dryRun) ⟨0, some d, []⟩

/-! ### Web organizer (app.py) -/

def PROTECTED_DIR : String := "protected_files"

structure OrganizeResult where
  organized : Nat
  errors : Nat
  skipped : Nat
deriving DecidableEq

inductive WebKind where
  | wMoved | wFailed | wSkipped
deriving DecidableEq

structure WebOut where
  res : OrganizeResult
  fs : FS
  log : List (String × WebKind)
deriving DecidableEq

def WEB_CATEGORIES : List String := FILE_EXTENSION_MAP_WEB.map (fun p => p.1) ++ ["Others"]

/-- app.py lines 136-144: pre-create every category folder and `Others`. -/
def ensure_folders (fs : FS) : FS :=
  WEB_CATEGORIES.foldl (fun fs c => if FS.existsRoot fs c then fs else FS.makedirs fs c) fs

/-- app.py lines 147-175, body of the per-entry loop: skip directories and
dot-prefixed names, skip the protected-folder name, else move and count. -/
def webStep (acc : WebOut) (f : String) : WebOut :=
  if acc.fs.isdir f || startsWithDot f then
    ⟨{acc.res with skipped := acc.res.skipped + 1}, acc.fs, acc.log ++ [(f, .wSkipped)]⟩
  else if f = PROTECTED_DIR then
    ⟨{acc.res with skipped := acc.res.skipped + 1}, acc.fs, acc.log ++ [(f, .wSkipped)]⟩
  else
    let category := get_category_for_file_web f
    let uniq := generate_unique_filename (acc.fs.subNames category) f
    match acc.fs.moveIntoDir f category uniq with
    | some fs' =>
      ⟨{acc.res with organized := acc.res.organized + 1}, fs', acc.log ++ [(f, .wMoved)]⟩
    | none =>
      ⟨{acc.res with errors := acc.res.errors + 1}, acc.fs, acc.log ++ [(f, .wFailed)]⟩

/-- app.py lines 132-177.  The `log` field is ghost instrumentation. -/
def organize_all_files (fs : FS) : WebOut :=
  let fs₀ := ensure_folders fs
  (fs₀.names).foldl webStep ⟨⟨0, 0, 0⟩, fs₀, []⟩

/-! ### Watch controller -/

/-- file_organizer.py lines 240-267 (event-driven `watch_directory`), up to
the point where the observer starts: a missing directory aborts; otherwise
one full organize pass runs, and the handler is constructed with an empty
`processed_files` set (line 212). -/
def watch_directory_init (fs : FS) : FS × List String :=
  match fs with
  | none => (none, [])
  | some d => ((organize_directory (some d) false).fs, [])

/-- file_organizer.py lines 296-303 (`watch_directory_loop` seeding): the
absolute paths of the root-level files — and only files — present at start;
no organize pass runs. -/
def watch_loop_init (fs : FS) : List String :=
  match fs with
  | none => []
  | some d =>
    (d.map FSEntry.name).foldl
      (fun acc n => if FS.isfile (some d) n then acc ++ [n] else acc) []

/-- Session start of the polling watcher: the filesystem is untouched and the
processed set is the seed above. -/
def watch_loop_start (fs : FS) : FS × List String := (fs, watch_loop_init fs)

structure TickOut where
  fs : FS
  processed : List String
  calls : List (String × Bool)
deriving DecidableEq

def tickStep (acc : TickOut) (n : String) : TickOut :=
  if acc.fs.isfile n && !(acc.processed.contains n) then
    let r := organize_file acc.fs n false
    ⟨r.fs, if r.moved then acc.processed ++ [n] else acc.processed, acc.calls ++ [(n, r.moved)]⟩
  else acc

/-- file_organizer.py lines 307-318, one iteration of the polling loop:
re-list the root, and for every file not yet processed call `organize_file`,
adding the path to `processed_files` only when the call returned `True`
(lines 315-316).  `calls` is a ghost log of the organize calls made. -/
def watch_loop_tick (fs : FS) (processed : List String) : TickOut :=
  match fs with
  | none => ⟨none, processed, []⟩
  | some d => (d.map FSEntry.name).foldl tickStep ⟨some d, processed, []⟩

/-! ### Correctness of the unique namer -/

theorem mkCandOf_inj (f : String) : Function.Injective (mkCandOf f) := by
  intro a b h
  have hd := congrArg String.data h
  simp only [mkCandOf, String.data_append] at hd
  exact pyStr_inj (String.ext (List.append_cancel_left
    (List.append_cancel_right (List.append_cancel_right hd))))

theorem exists_free_cand (dir : List String) (f : String) (c : Nat) :
    ∃ i, i < dir.length + 1 ∧ mkCandOf f (c + i) ∉ dir := by
  by_contra hcon
  push_neg at hcon
  have hinj : Function.Injective (fun i : Nat => mkCandOf f (c + i)) := by
    intro x y hxy
    have := mkCandOf_inj f hxy
    omega
  have hsub : ((List.range (dir.length + 1)).map
      (fun i => mkCandOf f (c + i))).toFinset ⊆ dir.toFinset := by
    intro x hx
    simp only [List.mem_toFinset, List.mem_map, List.mem_range] at hx ⊢
    obtain ⟨i, hi, rfl⟩ := hx
    exact hcon i hi
  have hnd : ((List.range (dir.length + 1)).map (fun i => mkCandOf f (c + i))).Nodup :=
    (List.nodup_range _).map hinj
  have h1 := List.toFinset_card_of_nodup hnd
  have h2 := Finset.card_le_card hsub
  have h3 := List.toFinset_card_le dir
  simp only [List.length_map, List.length_range] at h1
  omega

theorem findFree_spec (dir : List String) (f : String) :
    ∀ fuel c, (∃ i, i < fuel ∧ mkCandOf f (c + i) ∉ dir) →
    ∃ k, findFree dir f fuel c = some (mkCandOf f k) ∧ c ≤ k ∧ mkCandOf f k ∉ dir ∧
      ∀ j, c ≤ j → j < k → mkCandOf f j ∈ dir := by
  intro fuel
  induction fuel with
  | zero =>
    intro c h
    obtain ⟨i, hi, _⟩ := h
    omega
  | succ fuel ih =>
    intro c hex
    by_cases hc : mkCandOf f c ∈ dir
    · have hex' : ∃ i, i < fuel ∧ mkCandOf f (c + 1 + i) ∉ dir := by
        obtain ⟨i, hi, hni⟩ := hex
        cases i with
        | zero => exact absurd hc hni
        | succ i =>
          refine ⟨i, by omega, ?_⟩
          rwa [show c + 1 + i = c + (i + 1) by omega]
      obtain ⟨k, hk, hck, hnk, hleast⟩ := ih (c + 1) hex'
      refine ⟨k, ?_, by omega, hnk, ?_⟩
      · simp only [findFree, if_pos hc]
        exact hk
      · intro j hcj hjk
        rcases Nat.eq_or_lt_of_le hcj with rfl | hlt
        · exact hc
        · exact hleast j hlt hjk
    · exact ⟨c, by simp only [findFree, if_neg hc], Nat.le_refl c, hc,
        fun j h1 h2 => absurd (Nat.lt_of_le_of_lt h1 h2) (Nat.lt_irrefl c)⟩

theorem guf_not_mem (dir : List String) (f : String) (h : f ∉ dir) :
    generate_unique_filename dir f = f := by
  simp [generate_unique_filename, h]

theorem guf_mem_spec (dir : List String) (f : String) (h : f ∈ dir) :
    ∃ k, 1 ≤ k ∧ generate_unique_filename dir f = mkCandOf f k ∧
      mkCandOf f k ∉ dir ∧ ∀ j, 1 ≤ j → j < k → mkCandOf f j ∈ dir := by
  obtain ⟨i, hi, hni⟩ := exists_free_cand dir f 1
  obtain ⟨k, hk, h1k, hnk, hleast⟩ := findFree_spec dir f (dir.length + 1) 1 ⟨i, hi, hni⟩
  exact ⟨k, h1k, by simp [generate_unique_filename, h, hk], hnk, hleast⟩

/-- Claim C7: `generate_unique_filename` returns the filename unchanged when no
entry of that name exists in the destination directory; on a collision it
probes `stem(1)ext`, `stem(2)ext`, … in increasing order and returns the first
candidate not present; in particular with the original plus the colliding
names `stem(1)ext … stem(n)ext` present (and `stem(n+1)ext` free) it returns
`stem(n+1)ext`. -/
theorem C7_thm (dir : List String) (f : String) (n : Nat) :
    (f ∉ dir → generate_unique_filename dir f = f) ∧
    (f ∈ dir → ∃ k, 1 ≤ k ∧ generate_unique_filename dir f = mkCandOf f k ∧
      mkCandOf f k ∉ dir ∧ ∀ j, 1 ≤ j → j < k → mkCandOf f j ∈ dir) ∧
    (f ∈ dir → (∀ i, 1 ≤ i → i ≤ n → mkCandOf f i ∈ dir) → mkCandOf f (n + 1) ∉ dir →
      generate_unique_filename dir f = mkCandOf f (n + 1)) := by
  refine ⟨guf_not_mem dir f, guf_mem_spec dir f, ?_⟩
  intro hmem hall hfree
  obtain ⟨k, h1k, heq, hnk, hleast⟩ := guf_mem_spec dir f hmem
  have hkn : k = n + 1 := by
    by_contra hne
    rcases Nat.lt_or_ge k (n + 1) with hlt | hge
    · exact hnk (hall k h1k (by omega))
    · exact hfree (hleast (n + 1) (by omega) (by omega))
  rw [heq, hkn]

/-- Witness for C7 at a concrete directory: one collision plus `report(1).pdf`
already taken forces `report(2).pdf`. -/
theorem C7_wit :
    ("report.pdf" ∈ (["report.pdf", "report(1).pdf"] : List String)) ∧
    generate_unique_filename ["report.pdf", "report(1).pdf"] "report.pdf" =
      mkCandOf "report.pdf" 2 :=
  ⟨by decide, (C7_thm ["report.pdf", "report(1).pdf"] "report.pdf" 1).2.2 (by decide)
    (by intro i h1 h2
        have hi : i = 1 := by omega
        subst hi
        decide)
    (by decide)⟩

/-! ### Category registry facts (claim C8) -/

theorem lookup_mem {l : List (String × String)} {k v : String}
    (h : l.lookup k = some v) : (k, v) ∈ l := by
  induction l with
  | nil => simp [List.lookup] at h
  | cons a as ih =>
    simp only [List.lookup] at h
    split at h
    · next heq =>
      cases h
      cases a
      simp only [beq_iff_eq] at heq
      subst heq
      exact List.mem_cons_self _ _
    · exact List.mem_cons_of_mem _ (ih h)

/-- The reverse index is the per-row expansion of the configuration table:
the shipped extensions are pairwise distinct, so the repeated dict
assignments never overwrite and simply append. -/
def EXT_INDEX_LIST : List (String × String) :=
  FILE_EXTENSION_MAP.flatMap (fun p => p.2.map (fun e => (e, p.1)))

theorem E2C_eq : EXTENSION_TO_CATEGORY = EXT_INDEX_LIST := by decide

theorem cfg_hit : ∀ p ∈ FILE_EXTENSION_MAP, ∀ e ∈ p.2,
    EXT_INDEX_LIST.lookup (pyLower e) = some p.1 := by decide

theorem cfg_keys : ∀ q ∈ EXT_INDEX_LIST, ∃ p ∈ FILE_EXTENSION_MAP, ∃ e ∈ p.2,
    pyLower e = q.1 ∧ p.1 = q.2 := by decide

theorem cfg_lower : ∀ p ∈ FILE_EXTENSION_MAP, ∀ e ∈ p.2, pyLower e = e := by decide

/-- Claim C8: `get_category_for_file` lowercases the filename's final
extension (Python suffix: empty for names with no usable dot) and returns the
configured category for every known extension, case-insensitively, and
`"Others"` for every other filename; it is a total function. -/
theorem C8_thm (f : String) :
    (∀ p, p ∈ FILE_EXTENSION_MAP → ∀ e, e ∈ p.2 → pyLower (pySuffix f) = e →
      get_category_for_file f = p.1) ∧
    ((∀ p, p ∈ FILE_EXTENSION_MAP → ∀ e, e ∈ p.2 → pyLower (pySuffix f) ≠ e) →
      get_category_for_file f = "Others") := by
  constructor
  · intro p hp e he hsuf
    have hl := cfg_hit p hp e he
    rw [cfg_lower p hp e he] at hl
    simp only [get_category_for_file, pyGet, E2C_eq, hsuf, hl]
  · intro hall
    have hnone : EXT_INDEX_LIST.lookup (pyLower (pySuffix f)) = none := by
      cases hq : EXT_INDEX_LIST.lookup (pyLower (pySuffix f)) with
      | none => rfl
      | some v =>
        obtain ⟨p, hp, e, he, hle, _⟩ := cfg_keys _ (lookup_mem hq)
        rw [cfg_lower p hp e he] at hle
        exact absurd hle.symm (hall p hp e he)
    simp only [get_category_for_file, pyGet, E2C_eq, hnone]

/-- Witness for C8: an upper-case known extension maps to its category, and an
unknown extension maps to Others. -/
theorem C8_wit :
    get_category_for_file "PHOTO.JPG" = "Images" ∧
    get_category_for_file "data.xyz" = "Others" := by
  constructor
  · exact (C8_thm "PHOTO.JPG").1 ("Images", [".jpg", ".jpeg", ".png", ".gif", ".bmp", ".svg",
      ".webp", ".ico", ".tiff", ".tif", ".raw", ".psd", ".ai"]) (by decide) ".jpg"
      (by decide) (by decide)
  · exact (C8_thm "data.xyz").2 (by decide)

/-! ### Polling-loop invariants (claim C1) -/

theorem tickStep_inv (proc₀ : List String) (acc : TickOut) (n : String)
    (h : ∀ p, p ∈ acc.processed ↔ p ∈ proc₀ ∨ (p, true) ∈ acc.calls) :
    ∀ p, p ∈ (tickStep acc n).processed ↔ p ∈ proc₀ ∨ (p, true) ∈ (tickStep acc n).calls := by
  intro p
  simp only [tickStep]
  split
  · generalize organize_file acc.fs n false = r
    obtain ⟨m, rfs, rk⟩ := r
    have hp := h p
    cases m <;> simp [List.mem_append, Prod.mk.injEq] <;> tauto
  · exact h p

theorem foldl_tick_inv (proc₀ : List String) :
    ∀ (L : List String) (acc : TickOut),
    (∀ p, p ∈ acc.processed ↔ p ∈ proc₀ ∨ (p, true) ∈ acc.calls) →
    ∀ p, p ∈ (L.foldl tickStep acc).processed ↔
      p ∈ proc₀ ∨ (p, true) ∈ (L.foldl tickStep acc).calls := by
  intro L
  induction L with
  | nil => intro acc h p; exact h p
  | cons n L ih => intro acc h p; exact ih (tickStep acc n) (tickStep_inv proc₀ acc n h) p

/-- Claim C1, amended: over one polling tick, a path ends up in the processed
set exactly when it was already there or its `organize_file` call this tick
returned success; a path whose organize call failed stays out and is
therefore re-detected (and organize is called again) on later ticks. -/
theorem C1_thm (fs : FS) (proc : List String) (p : String) :
    p ∈ (watch_loop_tick fs proc).processed ↔
      p ∈ proc ∨ (p, true) ∈ (watch_loop_tick fs proc).calls := by
  cases fs with
  | none => simp [watch_loop_tick]
  | some d =>
    exact foldl_tick_inv proc (d.map FSEntry.name) ⟨some d, proc, []⟩
      (fun q => by simp) p

/-- Counterexample to claim C1 as stated: starting from an empty processed
set with root files `photo.jpg` and `Images` (a plain file occupying the
`Images` category name), the first tick calls organize on `photo.jpg`, the
move fails (destination parent is not a directory), and the path is NOT added
to the processed set; the second tick calls organize on `photo.jpg` again, so
the session makes two organize calls for that path, not one. -/
theorem C1_cx :
    (("photo.jpg", false) ∈
      (watch_loop_tick (some [.file "photo.jpg", .file "Images"]) []).calls) ∧
    ("photo.jpg" ∉
      (watch_loop_tick (some [.file "photo.jpg", .file "Images"]) []).processed) ∧
    ((watch_loop_tick (some [.file "photo.jpg", .file "Images"]) []).calls ++
      (watch_loop_tick
        (watch_loop_tick (some [.file "photo.jpg", .file "Images"]) []).fs
        (watch_loop_tick (some [.file "photo.jpg", .file "Images"]) []).processed).calls).countP
      (fun c => c.1 = "photo.jpg") = 2 := by
  refine ⟨by decide, by decide, by decide⟩

/-! ### Dry-run frame properties (claim C2) -/

/-- Names of the plain files, root level, in listing order. -/
def FS.fileNames : FS → List String
  | none => []
  | some d =>
    d.filterMap (fun e =>
      match e with
      | .file n => some n
      | .dir _ _ => none)

theorem subNames_makedirs (fs : FS) (c x : String) :
    (fs.makedirs c).subNames x = fs.subNames x := by
  have hsingle : List.find? (fun e => decide (e.name = x)) [FSEntry.dir c []] = none ∨
      List.find? (fun e => decide (e.name = x)) [FSEntry.dir c []] =
        some (FSEntry.dir c []) := by
    by_cases h : c = x
    · right; simp [List.find?, FSEntry.name, h]
    · left; simp [List.find?, FSEntry.name, h]
  cases fs with
  | none =>
    simp only [FS.makedirs, FS.subNames, Option.getD, List.nil_append]
    rcases hsingle with h | h <;> rw [h]
  | some d =>
    simp only [FS.makedirs, FS.subNames, Option.getD, List.find?_append]
    cases hf : d.find? (fun e => decide (e.name = x)) with
    | some e => simp [Option.or]
    | none =>
      rcases hsingle with h | h <;> simp [Option.or, h]

theorem fileNames_makedirs (fs : FS) (c : String) :
    (fs.makedirs c).fileNames = fs.fileNames := by
  cases fs with
  | none => simp [FS.makedirs, FS.fileNames, List.filterMap]
  | some d => simp [FS.makedirs, FS.fileNames, List.filterMap_append, List.filterMap]

theorem organize_file_dry_fs (fs : FS) (f : String) :
    (organize_file fs f true).fs = fs ∨
      (organize_file fs f true).fs = fs.makedirs (get_category_for_file f) := by
  by_cases h1 : f = SCRIPT_NAME
  · exact Or.inl (by simp [organize_file, h1])
  by_cases h2 : fs.isdir f
  · exact Or.inl (by simp [organize_file, h1, h2])
  by_cases h3 : fs.existsRoot (get_category_for_file f)
  · exact Or.inl (by simp [organize_file, h1, h2, h3])
  · exact Or.inr (by simp [organize_file, h1, h2, h3])

theorem cli_dry_foldl (fs₀ : FS) : ∀ (L : List String) (acc : CliOut),
    (∀ c, acc.fs.subNames c = fs₀.subNames c) → acc.fs.fileNames = fs₀.fileNames →
    (∀ c, (L.foldl (cliStep true) acc).fs.subNames c = fs₀.subNames c) ∧
      (L.foldl (cliStep true) acc).fs.fileNames = fs₀.fileNames := by
  intro L
  induction L with
  | nil => intro acc h1 h2; exact ⟨h1, h2⟩
  | cons n L ih =>
    intro acc h1 h2
    have hstep : (cliStep true acc n).fs = (organize_file acc.fs n true).fs := rfl
    rcases organize_file_dry_fs acc.fs n with heq | heq
    · exact ih _ (fun c => by rw [hstep, heq]; exact h1 c) (by rw [hstep, heq]; exact h2)
    · refine ih _ (fun c => ?_) ?_
      · rw [hstep, heq, subNames_makedirs]
        exact h1 c
      · rw [hstep, heq, fileNames_makedirs]
        exact h2

/-- Claim C2, amended: a dry run never moves or removes a file — every file at
the root and every subdirectory's contents are unchanged, both for a single
`organize_file` call and for a whole dry pass — but it is not mutation-free:
the missing destination category folder is still created (the makedirs at
file_organizer.py line 144 runs before the dry_run test at line 151). -/
theorem C2_thm (fs : FS) (f : String) :
    (∀ c, (organize_file fs f true).fs.subNames c = fs.subNames c) ∧
    ((organize_file fs f true).fs.fileNames = fs.fileNames) ∧
    ((organize_file fs f true).fs = fs ∨
      (organize_file fs f true).fs = fs.makedirs (get_category_for_file f)) ∧
    (∀ c, (organize_directory fs true).fs.subNames c = fs.subNames c) ∧
    ((organize_directory fs true).fs.fileNames = fs.fileNames) := by
  have hfile : ∀ c, (organize_file fs f true).fs.subNames c = fs.subNames c := by
    intro c
    rcases organize_file_dry_fs fs f with heq | heq
    · rw [heq]
    · rw [heq, subNames_makedirs]
  have hfile2 : (organize_file fs f true).fs.fileNames = fs.fileNames := by
    rcases organize_file_dry_fs fs f with heq | heq
    · rw [heq]
    · rw [heq, fileNames_makedirs]
  refine ⟨hfile, hfile2, organize_file_dry_fs fs f, ?_, ?_⟩
  · intro c
    cases fs with
    | none => rfl
    | some d => exact ((cli_dry_foldl (some d) (d.map FSEntry.name) ⟨0, some d, []⟩
        (fun _ => rfl) rfl).1) c
  · cases fs with
    | none => rfl
    | some d => exact (cli_dry_foldl (some d) (d.map FSEntry.name) ⟨0, some d, []⟩
        (fun _ => rfl) rfl).2

/-- Counterexample to claim C2 as stated: a dry run on a directory holding
only `photo.jpg` creates the `Images` folder, so the root listing after the
call differs from the listing before it. -/
theorem C2_cx :
    FS.names (organize_file (some [.file "photo.jpg"]) "photo.jpg" true).fs ≠
      FS.names (some [FSEntry.file "photo.jpg"]) := by decide

/-! ### Watch-session initialization (claim C3) -/

theorem seed_mem (d : Dir) : ∀ (L : List String) (acc : List String) (n : String),
    (n ∈ L.foldl (fun acc m => if FS.isfile (some d) m then acc ++ [m] else acc) acc ↔
      n ∈ acc ∨ (n ∈ L ∧ FS.isfile (some d) n = true)) := by
  intro L
  induction L with
  | nil => intro acc n; simp
  | cons m L ih =>
    intro acc n
    simp only [List.foldl]
    by_cases hm : FS.isfile (some d) m = true
    · rw [if_pos hm, ih]
      constructor
      · rintro (hacc | ⟨hL, hf⟩)
        · rcases List.mem_append.mp hacc with h | h
          · exact Or.inl h
          · rcases List.mem_singleton.mp h with rfl
            exact Or.inr ⟨List.mem_cons_self _ _, hm⟩
        · exact Or.inr ⟨List.mem_cons_of_mem _ hL, hf⟩
      · rintro (hacc | ⟨hL, hf⟩)
        · exact Or.inl (List.mem_append.mpr (Or.inl hacc))
        · rcases List.mem_cons.mp hL with rfl | h
          · exact Or.inl (List.mem_append.mpr (Or.inr (List.mem_singleton.mpr rfl)))
          · exact Or.inr ⟨h, hf⟩
    · rw [if_neg hm, ih]
      constructor
      · rintro (hacc | ⟨hL, hf⟩)
        · exact Or.inl hacc
        · exact Or.inr ⟨List.mem_cons_of_mem _ hL, hf⟩
      · rintro (hacc | ⟨hL, hf⟩)
        · exact Or.inl hacc
        · rcases List.mem_cons.mp hL with rfl | h
          · exact absurd hf hm
          · exact Or.inr ⟨h, hf⟩

/-- Claim C3, amended: the event-driven session runs one full organize pass
and then starts with an EMPTY processed set (the handler's
`processed_files = set()`), while the polling session runs NO initial organize
pass (the filesystem is untouched at start) and seeds the processed set with
exactly the root-level files (not directories) present at start. -/
theorem C3_thm (fs : FS) :
    ((watch_directory_init fs).2 = []) ∧
    ((watch_directory_init fs).1 = (organize_directory fs false).fs) ∧
    ((watch_loop_start fs).1 = fs) ∧
    (∀ n, n ∈ (watch_loop_start fs).2 ↔ n ∈ FS.names fs ∧ FS.isfile fs n = true) := by
  refine ⟨?_, ?_, rfl, ?_⟩
  · cases fs <;> rfl
  · cases fs <;> rfl
  · intro n
    cases fs with
    | none => simp [watch_loop_start, watch_loop_init, FS.names, FS.isfile]
    | some d =>
      have := seed_mem d (d.map FSEntry.name) [] n
      simp only [List.not_mem_nil, false_or] at this
      exact this

/-- Counterexample to claim C3 as stated: in event mode (`watch_directory`),
after the initial pass the processed set is empty even though an entry
remains at the root (claimed: it is seeded with every remaining entry); in
polling mode (`watch_directory_loop`), session start leaves `photo.jpg`
unmoved at the root (claimed: a full organize pass runs first, which would
have moved it into `Images/`). -/
theorem C3_cx :
    ((watch_directory_init (some [.dir "stuff" []])).2 = [] ∧
      FS.names (watch_directory_init (some [.dir "stuff" []])).1 = ["stuff"]) ∧
    ((watch_loop_start (some [.file "photo.jpg"])).1 = some [FSEntry.file "photo.jpg"] ∧
      (watch_loop_start (some [.file "photo.jpg"])).2 = ["photo.jpg"]) := by
  exact ⟨⟨by decide, by decide⟩, ⟨by decide, by decide⟩⟩

/-! ### Skip rules (claim C4) -/

/-- Claim C4, amended: the CLI `organize_file` evaluates exactly two skip
rules — (1) base name equals the script's own name (line 125), then (2) the
path is a directory (line 130) — each returning `moved = false` with no
filesystem change; it has NO protected-folder rule.  The protected-folder
name is skipped (and counted) only in the web variant's per-entry step, which
in turn has no script-name rule. -/
theorem C4_thm (fs : FS) (f : String) (dr : Bool) :
    (f = SCRIPT_NAME → organize_file fs f dr = ⟨false, fs, .skipScript⟩) ∧
    (f ≠ SCRIPT_NAME → fs.isdir f = true → organize_file fs f dr = ⟨false, fs, .skipDir⟩) ∧
    (∀ acc : WebOut, acc.fs.isdir PROTECTED_DIR = false →
      webStep acc PROTECTED_DIR =
        ⟨⟨acc.res.organized, acc.res.errors, acc.res.skipped + 1⟩, acc.fs,
          acc.log ++ [(PROTECTED_DIR, .wSkipped)]⟩) := by
  refine ⟨?_, ?_, ?_⟩
  · intro h
    simp [organize_file, h]
  · intro h1 h2
    simp [organize_file, h1, h2]
  · intro acc hdir
    have hdot : startsWithDot PROTECTED_DIR = false := by decide
    simp [webStep, hdir, hdot]

/-- Witness for C4 at concrete states: the script file, a directory, and the
protected-folder name in the web step. -/
theorem C4_wit :
    organize_file (some [.file SCRIPT_NAME]) SCRIPT_NAME false =
      ⟨false, some [.file SCRIPT_NAME], .skipScript⟩ ∧
    organize_file (some [.dir "x" []]) "x" false = ⟨false, some [.dir "x" []], .skipDir⟩ ∧
    webStep ⟨⟨0, 0, 0⟩, some [.file PROTECTED_DIR], []⟩ PROTECTED_DIR =
      ⟨⟨0, 0, 1⟩, some [.file PROTECTED_DIR], [(PROTECTED_DIR, .wSkipped)]⟩ := by
  refine ⟨(C4_thm (some [.file SCRIPT_NAME]) SCRIPT_NAME false).1 rfl,
    (C4_thm (some [.dir "x" []]) "x" false).2.1 (by decide) (by decide),
    (C4_thm (some [.file PROTECTED_DIR]) "" false).2.2
      ⟨⟨0, 0, 0⟩, some [.file PROTECTED_DIR], []⟩ (by decide)⟩

/-- Counterexample to claim C4 as stated: a root FILE named exactly
`protected_files` is not skipped by the CLI organizer — it is classified as
`Others` and moved there, returning `moved = true` with a filesystem change,
so the claimed third skip rule does not exist in `organize_file`. -/
theorem C4_cx :
    organize_file (some [.file "protected_files"]) "protected_files" false =
      ⟨true, some [.dir "Others" ["protected_files"]], .movedOk⟩ := by decide

/-! ### The report/photo/script scenario (claim C5) -/

/-- Root with `report.pdf`, `photo.jpg`, `script.py` and an existing
`Documents/report.pdf`. -/
def scenarioC5 : FS :=
  some [.file "report.pdf", .file "photo.jpg", .file "script.py",
    .dir "Documents" ["report.pdf"]]

/-- Counterexample to claim C5 as stated: the web pass on the scenario
returns `{organized := 3, errors := 0, skipped := 7}` — `report.pdf`'s
relocation to `Documents/report(1).pdf` is counted as organized, and the
seven category directories present after pre-creation are each counted as
skipped — not the claimed `{organized := 2, errors := 0, skipped := 0}`. -/
theorem C5_cx :
    (organize_all_files scenarioC5).res = ⟨3, 0, 7⟩ ∧
    (⟨3, 0, 7⟩ : OrganizeResult) ≠ ⟨2, 0, 0⟩ := by
  exact ⟨by decide, by decide⟩

/-- Claim C5, amended: on the scenario the web pass returns
`{organized := 3, errors := 0, skipped := 7}`, with `photo.jpg` moved to
`Images/photo.jpg`, `script.py` to `Code/script.py`, and `report.pdf`
relocated to `Documents/report(1).pdf` (leaving no file at the root); the CLI
pass on the same scenario likewise reports 3 files organized. -/
theorem C5_thm :
    (organize_all_files scenarioC5).res = ⟨3, 0, 7⟩ ∧
    FS.subNames (organize_all_files scenarioC5).fs "Documents" =
      ["report.pdf", "report(1).pdf"] ∧
    FS.subNames (organize_all_files scenarioC5).fs "Images" = ["photo.jpg"] ∧
    FS.subNames (organize_all_files scenarioC5).fs "Code" = ["script.py"] ∧
    FS.fileNames (organize_all_files scenarioC5).fs = [] ∧
    (organize_directory scenarioC5 false).count = 3 := by
  exact ⟨by decide, by decide, by decide, by decide, by decide, by decide⟩

/-! ### Batch-pass accounting (claim C6) -/

theorem organize_file_moved_kind (fs : FS) (f : String) (dr : Bool) :
    (organize_file fs f dr).moved =
      ((organize_file fs f dr).kind == StepKind.movedOk ||
        (organize_file fs f dr).kind == StepKind.dryReport) := by
  simp only [organize_file]
  split
  · rfl
  · split
    · rfl
    · split
      · rfl
      · split
        · rfl
        · rfl

theorem cliStep_count (dr : Bool) (acc : CliOut) (n : String)
    (h : acc.count = acc.log.countP
      (fun q => q.2 == StepKind.movedOk || q.2 == StepKind.dryReport)) :
    (cliStep dr acc n).count = (cliStep dr acc n).log.countP
      (fun q => q.2 == StepKind.movedOk || q.2 == StepKind.dryReport) := by
  simp only [cliStep, List.countP_append, List.countP_cons, List.countP_nil]
  rw [h, organize_file_moved_kind acc.fs n dr]
  cases (organize_file acc.fs n dr).kind <;> simp

theorem cli_foldl_count (dr : Bool) : ∀ (L : List String) (acc : CliOut),
    acc.count = acc.log.countP
      (fun q => q.2 == StepKind.movedOk || q.2 == StepKind.dryReport) →
    (L.foldl (cliStep dr) acc).count = (L.foldl (cliStep dr) acc).log.countP
      (fun q => q.2 == StepKind.movedOk || q.2 == StepKind.dryReport) := by
  intro L
  induction L with
  | nil => intro acc h; exact h
  | cons n L ih => intro acc h; exact ih _ (cliStep_count dr acc n h)

theorem cli_foldl_log (dr : Bool) : ∀ (L : List String) (acc : CliOut),
    (L.foldl (cliStep dr) acc).log.map Prod.fst = acc.log.map Prod.fst ++ L := by
  intro L
  induction L with
  | nil => intro acc; simp
  | cons n L ih =>
    intro acc
    rw [List.foldl_cons, ih]
    simp [cliStep]

theorem webStep_log_shape (acc : WebOut) (f : String) :
    ∃ k, (webStep acc f).log = acc.log ++ [(f, k)] := by
  simp only [webStep]
  split
  · exact ⟨_, rfl⟩
  · split
    · exact ⟨_, rfl⟩
    · split
      · exact ⟨_, rfl⟩
      · exact ⟨_, rfl⟩

theorem web_foldl_log : ∀ (L : List String) (acc : WebOut),
    (L.foldl webStep acc).log.map Prod.fst = acc.log.map Prod.fst ++ L := by
  intro L
  induction L with
  | nil => intro acc; simp
  | cons f L ih =>
    intro acc
    rw [List.foldl_cons, ih]
    obtain ⟨k, hk⟩ := webStep_log_shape acc f
    simp [hk]

theorem webStep_counts (acc : WebOut) (f : String)
    (h1 : acc.res.organized = acc.log.countP (fun q => q.2 == WebKind.wMoved))
    (h2 : acc.res.errors = acc.log.countP (fun q => q.2 == WebKind.wFailed))
    (h3 : acc.res.skipped = acc.log.countP (fun q => q.2 == WebKind.wSkipped)) :
    (webStep acc f).res.organized =
        (webStep acc f).log.countP (fun q => q.2 == WebKind.wMoved) ∧
      (webStep acc f).res.errors =
        (webStep acc f).log.countP (fun q => q.2 == WebKind.wFailed) ∧
      (webStep acc f).res.skipped =
        (webStep acc f).log.countP (fun q => q.2 == WebKind.wSkipped) := by
  simp only [webStep]
  split
  · refine ⟨?_, ?_, ?_⟩ <;>
      simp [List.countP_append, List.countP_cons, h1, h2, h3]
  · split
    · refine ⟨?_, ?_, ?_⟩ <;>
        simp [List.countP_append, List.countP_cons, h1, h2, h3]
    · split
      · refine ⟨?_, ?_, ?_⟩ <;>
          simp [List.countP_append, List.countP_cons, h1, h2, h3]
      · refine ⟨?_, ?_, ?_⟩ <;>
          simp [List.countP_append, List.countP_cons, h1, h2, h3]

theorem web_foldl_counts : ∀ (L : List String) (acc : WebOut),
    acc.res.organized = acc.log.countP (fun q => q.2 == WebKind.wMoved) →
    acc.res.errors = acc.log.countP (fun q => q.2 == WebKind.wFailed) →
    acc.res.skipped = acc.log.countP (fun q => q.2 == WebKind.wSkipped) →
    (L.foldl webStep acc).res.organized =
        (L.foldl webStep acc).log.countP (fun q => q.2 == WebKind.wMoved) ∧
      (L.foldl webStep acc).res.errors =
        (L.foldl webStep acc).log.countP (fun q => q.2 == WebKind.wFailed) ∧
      (L.foldl webStep acc).res.skipped =
        (L.foldl webStep acc).log.countP (fun q => q.2 == WebKind.wSkipped) := by
  intro L
  induction L with
  | nil => intro acc h1 h2 h3; exact ⟨h1, h2, h3⟩
  | cons f L ih =>
    intro acc h1 h2 h3
    obtain ⟨g1, g2, g3⟩ := webStep_counts acc f h1 h2 h3
    exact ih _ g1 g2 g3

/-- Claim C6, amended: the CLI pass aborts only on a missing directory
(returning 0 with the filesystem untouched and no entry processed); otherwise
every listed entry is processed in order and the returned value is a bare
count of the successful (or dry-reported) organize calls — per-file failures
continue the pass but appear in no error field, the CLI result having none.
The web pass processes every entry of the post-creation listing — never
aborting — and its organized/errors/skipped fields count exactly the moved,
failed and skipped steps, so each per-file move failure increments `errors`
and the pass continues. -/
theorem C6_thm (fs : FS) (dr : Bool) :
    (organize_directory none dr = ⟨0, none, []⟩) ∧
    ((organize_directory fs dr).log.map Prod.fst = FS.names fs) ∧
    ((organize_directory fs dr).count = (organize_directory fs dr).log.countP
      (fun q => q.2 == StepKind.movedOk || q.2 == StepKind.dryReport)) ∧
    ((organize_all_files fs).log.map Prod.fst = FS.names (ensure_folders fs)) ∧
    ((organize_all_files fs).res.organized =
      (organize_all_files fs).log.countP (fun q => q.2 == WebKind.wMoved)) ∧
    ((organize_all_files fs).res.errors =
      (organize_all_files fs).log.countP (fun q => q.2 == WebKind.wFailed)) ∧
    ((organize_all_files fs).res.skipped =
      (organize_all_files fs).log.countP (fun q => q.2 == WebKind.wSkipped)) := by
  obtain ⟨w1, w2, w3⟩ := web_foldl_counts (FS.names (ensure_folders fs))
    ⟨⟨0, 0, 0⟩, ensure_folders fs, []⟩ rfl rfl rfl
  refine ⟨rfl, ?_, ?_, ?_, w1, w2, w3⟩
  · cases fs with
    | none => rfl
    | some d =>
      have := cli_foldl_log dr (d.map FSEntry.name) ⟨0, some d, []⟩
      simpa [organize_directory, FS.names] using this
  · cases fs with
    | none => rfl
    | some d => exact cli_foldl_count dr (d.map FSEntry.name) ⟨0, some d, []⟩ rfl
  · have := web_foldl_log (FS.names (ensure_folders fs)) ⟨⟨0, 0, 0⟩, ensure_folders fs, []⟩
    simpa [organize_all_files] using this

/-- Counterexample to claim C6 as stated: on a missing watch directory the
web pass does not abort with an all-zero result and a directory-level error —
it CREATES the directory together with the seven category folders (a
filesystem mutation) and returns `{organized := 0, errors := 0, skipped := 7}`
with no error recorded. -/
theorem C6_cx :
    (organize_all_files none).res = ⟨0, 0, 7⟩ ∧ (organize_all_files none).fs ≠ none := by
  exact ⟨by decide, by decide⟩

/-! ### Hidden-file handling in the web pass (claim C10) -/

theorem mem_removeFirst_ne {d : Dir} {e : FSEntry} {n : String}
    (he : e ∈ d) (hne : e.name ≠ n) : e ∈ removeFirst d n := by
  induction d with
  | nil => cases he
  | cons x xs ih =>
    simp only [removeFirst]
    by_cases hx : x.name = n
    · rw [if_pos hx]
      rcases List.mem_cons.mp he with rfl | h
      · exact absurd hx hne
      · exact h
    · rw [if_neg hx]
      rcases List.mem_cons.mp he with rfl | h
      · exact List.mem_cons_self _ _
      · exact List.mem_cons_of_mem _ (ih h)

theorem mem_modifyFirst_ne {d : Dir} {e : FSEntry} {n : String} {g : FSEntry → FSEntry}
    (he : e ∈ d) (hne : e.name ≠ n) : e ∈ modifyFirst d n g := by
  induction d with
  | nil => cases he
  | cons x xs ih =>
    simp only [modifyFirst]
    by_cases hx : x.name = n
    · rw [if_pos hx]
      rcases List.mem_cons.mp he with rfl | h
      · exact absurd hx hne
      · exact List.mem_cons_of_mem _ h
    · rw [if_neg hx]
      rcases List.mem_cons.mp he with rfl | h
      · exact List.mem_cons_self _ _
      · exact List.mem_cons_of_mem _ (ih h)

theorem web_values_not_dot : ∀ q ∈ EXTENSION_TO_CATEGORY_WEB, startsWithDot q.2 = false := by
  decide

theorem web_category_not_dot (f : String) :
    startsWithDot (get_category_for_file_web f) = false := by
  simp only [get_category_for_file_web, pyGet]
  cases hq : EXTENSION_TO_CATEGORY_WEB.lookup (pyLower (pySuffix f)) with
  | none => decide
  | some v => exact web_values_not_dot _ (lookup_mem hq)

theorem webStep_preserves_dot (acc : WebOut) (f : String) (d : Dir) (e : FSEntry)
    (hfs : acc.fs = some d) (he : e ∈ d) (hdot : startsWithDot e.name = true) :
    ∃ d', (webStep acc f).fs = some d' ∧ e ∈ d' := by
  simp only [webStep]
  split
  · exact ⟨d, hfs, he⟩
  · next hguard =>
    split
    · exact ⟨d, hfs, he⟩
    · have hfdot : startsWithDot f = false := by
        simp only [Bool.or_eq_true, not_or, Bool.not_eq_true] at hguard
        exact hguard.2
      split
      · next fs' heq =>
        rw [hfs] at heq
        simp only [FS.moveIntoDir] at heq
        split at heq
        · cases heq
          refine ⟨_, rfl, ?_⟩
          have hne : e.name ≠ f := by
            intro hcon
            rw [hcon, hfdot] at hdot
            cases hdot
          have hnec : e.name ≠ get_category_for_file_web f := by
            intro hcon
            rw [hcon, web_category_not_dot f] at hdot
            cases hdot
          exact mem_modifyFirst_ne (mem_removeFirst_ne he hne) hnec
        · cases heq
      · exact ⟨d, hfs, he⟩

theorem web_foldl_preserves_dot : ∀ (L : List String) (acc : WebOut) (d : Dir) (e : FSEntry),
    acc.fs = some d → e ∈ d → startsWithDot e.name = true →
    ∃ d', (L.foldl webStep acc).fs = some d' ∧ e ∈ d' := by
  intro L
  induction L with
  | nil => intro acc d e hfs he _; exact ⟨d, hfs, he⟩
  | cons f L ih =>
    intro acc d e hfs he hdot
    obtain ⟨d', hfs', he'⟩ := webStep_preserves_dot acc f d e hfs he hdot
    exact ih _ d' e hfs' he' hdot

theorem web_foldl_log_mono : ∀ (L : List String) (acc : WebOut) (q : String × WebKind),
    q ∈ acc.log → q ∈ (L.foldl webStep acc).log := by
  intro L
  induction L with
  | nil => intro acc q h; exact h
  | cons f L ih =>
    intro acc q h
    apply ih
    obtain ⟨k, hk⟩ := webStep_log_shape acc f
    rw [hk]
    exact List.mem_append.mpr (Or.inl h)

theorem web_foldl_dot_logged : ∀ (L : List String) (acc : WebOut) (f : String),
    f ∈ L → startsWithDot f = true →
    (f, WebKind.wSkipped) ∈ (L.foldl webStep acc).log := by
  intro L
  induction L with
  | nil => intro acc f h; cases h
  | cons m L ih =>
    intro acc f hmem hdot
    rcases List.mem_cons.mp hmem with rfl | h
    · rw [List.foldl_cons]
      apply web_foldl_log_mono
      have hstep : webStep acc f = ⟨{acc.res with skipped := acc.res.skipped + 1}, acc.fs,
          acc.log ++ [(f, .wSkipped)]⟩ := by
        simp only [webStep]
        rw [if_pos]
        rw [hdot]
        exact Bool.or_true _
      rw [hstep]
      exact List.mem_append.mpr (Or.inr (List.mem_singleton.mpr rfl))
    · rw [List.foldl_cons]
      exact ih _ f h hdot

theorem webStep_skip_ge (acc : WebOut) (f : String) :
    acc.res.skipped + (if startsWithDot f = true then 1 else 0) ≤
      (webStep acc f).res.skipped := by
  by_cases hdot : startsWithDot f = true
  · have : webStep acc f = ⟨{acc.res with skipped := acc.res.skipped + 1}, acc.fs,
        acc.log ++ [(f, .wSkipped)]⟩ := by
      simp only [webStep]
      rw [if_pos]
      rw [hdot]
      exact Bool.or_true _
    rw [this, if_pos hdot]
  · rw [if_neg hdot, Nat.add_zero]
    simp only [webStep]
    split
    · exact Nat.le_succ _
    · split
      · exact Nat.le_succ _
      · split
        · exact Nat.le_refl _
        · exact Nat.le_refl _

theorem web_foldl_skip_ge : ∀ (L : List String) (acc : WebOut),
    acc.res.skipped + L.countP (fun n => startsWithDot n) ≤
      (L.foldl webStep acc).res.skipped := by
  intro L
  induction L with
  | nil => intro acc; simp
  | cons f L ih =>
    intro acc
    have h1 := webStep_skip_ge acc f
    have h2 := ih (webStep acc f)
    rw [List.foldl_cons, List.countP_cons]
    by_cases hdot : startsWithDot f = true
    · rw [if_pos hdot] at h1 ⊢
      omega
    · rw [if_neg hdot] at h1 ⊢
      omega

theorem ensure_shape : ∀ (cats : List String) (d : Dir),
    ∃ t, cats.foldl (fun fs c => if FS.existsRoot fs c then fs else FS.makedirs fs c)
        (some d) = some (d ++ t) ∧
      ∀ e ∈ t, ∃ c, c ∈ cats ∧ e = FSEntry.dir c [] := by
  intro cats
  induction cats with
  | nil => intro d; exact ⟨[], by simp, by simp⟩
  | cons c cats ih =>
    intro d
    rw [List.foldl_cons]
    by_cases hex : FS.existsRoot (some d) c = true
    · rw [if_pos hex]
      obtain ⟨t, h1, h2⟩ := ih d
      refine ⟨t, h1, fun e he => ?_⟩
      obtain ⟨c', hc', he'⟩ := h2 e he
      exact ⟨c', List.mem_cons_of_mem _ hc', he'⟩
    · rw [if_neg hex]
      have hmk : FS.makedirs (some d) c = some (d ++ [FSEntry.dir c []]) := by
        simp [FS.makedirs, Option.getD]
      rw [hmk]
      obtain ⟨t, h1, h2⟩ := ih (d ++ [FSEntry.dir c []])
      refine ⟨[FSEntry.dir c []] ++ t, ?_, ?_⟩
      · rw [h1, List.append_assoc]
      · intro e he
        rcases List.mem_append.mp he with he | he
        · rcases List.mem_singleton.mp he with rfl
          exact ⟨c, List.mem_cons_self _ _, rfl⟩
        · obtain ⟨c', hc', he'⟩ := h2 e he
          exact ⟨c', List.mem_cons_of_mem _ hc', he'⟩

theorem web_cats_not_dot : ∀ c ∈ WEB_CATEGORIES, startsWithDot c = false := by decide

/-- Claim C10: in the web variant's full pass, every top-level entry whose
base name begins with a dot is never moved (it is still present at the root
afterwards), its step is logged as skipped, and the `skipped` field of the
result is at least the number of dot-prefixed entries. -/
theorem C10_thm (d : Dir) (e : FSEntry) (he : e ∈ d)
    (hdot : startsWithDot e.name = true) :
    (∃ d', (organize_all_files (some d)).fs = some d' ∧ e ∈ d') ∧
    ((e.name, WebKind.wSkipped) ∈ (organize_all_files (some d)).log) ∧
    ((d.map FSEntry.name).countP (fun n => startsWithDot n) ≤
      (organize_all_files (some d)).res.skipped) := by
  obtain ⟨t, ht, htc⟩ := ensure_shape WEB_CATEGORIES d
  have hens : ensure_folders (some d) = some (d ++ t) := ht
  have hall : organize_all_files (some d) =
      (FS.names (some (d ++ t))).foldl webStep ⟨⟨0, 0, 0⟩, some (d ++ t), []⟩ := by
    simp only [organize_all_files, hens]
  refine ⟨?_, ?_, ?_⟩
  · rw [hall]
    exact web_foldl_preserves_dot _ _ (d ++ t) e rfl
      (List.mem_append.mpr (Or.inl he)) hdot
  · rw [hall]
    apply web_foldl_dot_logged
    · exact List.mem_map_of_mem FSEntry.name (List.mem_append.mpr (Or.inl he))
    · exact hdot
  · have hge := web_foldl_skip_ge (FS.names (some (d ++ t)))
      ⟨⟨0, 0, 0⟩, some (d ++ t), []⟩
    have htz : (t.map FSEntry.name).countP (fun n => startsWithDot n) = 0 := by
      rw [List.countP_eq_zero]
      intro n hn
      obtain ⟨e', he', rfl⟩ := List.mem_map.mp hn
      obtain ⟨c, hc, rfl⟩ := htc e' he'
      simp [FSEntry.name, web_cats_not_dot c hc]
    have hsplit : FS.names (some (d ++ t)) = d.map FSEntry.name ++ t.map FSEntry.name := by
      simp [FS.names]
    rw [hall, hsplit]
    rw [hsplit, List.countP_append, htz] at hge
    omega

/-- Witness for C10 at a concrete directory holding `.env` and `a.txt`. -/
theorem C10_wit :
    (∃ d', (organize_all_files (some [FSEntry.file ".env", FSEntry.file "a.txt"])).fs =
        some d' ∧ FSEntry.file ".env" ∈ d') ∧
    (((FSEntry.file ".env").name, WebKind.wSkipped) ∈
      (organize_all_files (some [FSEntry.file ".env", FSEntry.file "a.txt"])).log) ∧
    (([FSEntry.file ".env", FSEntry.file "a.txt"].map FSEntry.name).countP
        (fun n => startsWithDot n) ≤
      (organize_all_files (some [FSEntry.file ".env", FSEntry.file "a.txt"])).res.skipped) :=
  C10_thm [FSEntry.file ".env", FSEntry.file "a.txt"] (FSEntry.file ".env")
    (by decide) (by decide)

/-! ### Second-pass idempotence (claim C9) -/

theorem cli_foldl_log_mono (dr : Bool) : ∀ (L : List String) (acc : CliOut)
    (q : String × StepKind), q ∈ acc.log → q ∈ (L.foldl (cliStep dr) acc).log := by
  intro L
  induction L with
  | nil => intro acc q h; exact h
  | cons n L ih =>
    intro acc q h
    rw [List.foldl_cons]
    apply ih
    exact List.mem_append.mpr (Or.inl h)

theorem removeFirst_sublist (d : Dir) (n : String) : List.Sublist (removeFirst d n) d := by
  induction d with
  | nil => exact List.Sublist.refl _
  | cons x xs ih =>
    simp only [removeFirst]
    by_cases hx : x.name = n
    · rw [if_pos hx]
      exact List.sublist_cons_self x xs
    · rw [if_neg hx]
      exact List.Sublist.cons₂ x ih

theorem names_modifyFirst (d : Dir) (n : String) (g : FSEntry → FSEntry)
    (hg : ∀ x, (g x).name = x.name) :
    (modifyFirst d n g).map FSEntry.name = d.map FSEntry.name := by
  induction d with
  | nil => rfl
  | cons x xs ih =>
    simp only [modifyFirst]
    by_cases hx : x.name = n
    · rw [if_pos hx]
      simp [hg]
    · rw [if_neg hx]
      simp [ih]

theorem mem_modifyFirst (d : Dir) (n : String) (g : FSEntry → FSEntry) (e : FSEntry)
    (he : e ∈ modifyFirst d n g) : e ∈ d ∨ ∃ x, x ∈ d ∧ e = g x := by
  induction d with
  | nil => cases he
  | cons x xs ih =>
    simp only [modifyFirst] at he
    by_cases hx : x.name = n
    · rw [if_pos hx] at he
      rcases List.mem_cons.mp he with rfl | h
      · exact Or.inr ⟨x, List.mem_cons_self _ _, rfl⟩
      · exact Or.inl (List.mem_cons_of_mem _ h)
    · rw [if_neg hx] at he
      rcases List.mem_cons.mp he with rfl | h
      · exact Or.inl (List.mem_cons_self _ _)
      · rcases ih h with h' | ⟨y, hy, he'⟩
        · exact Or.inl (List.mem_cons_of_mem _ h')
        · exact Or.inr ⟨y, List.mem_cons_of_mem _ hy, he'⟩

theorem file_mem_addFileInto (d : Dir) (c fname : String) (e : FSEntry)
    (hf : e.isFile = true) (he : e ∈ addFileInto d c fname) : e ∈ d := by
  rcases mem_modifyFirst d c _ e he with h | ⟨x, hx, he'⟩
  · exact h
  · cases x with
    | file m => exact he' ▸ hx
    | dir m cs =>
      rw [he'] at hf
      cases hf

theorem name_ne_of_mem_removeFirst {d : Dir} {n : String} {e : FSEntry}
    (hnd : (d.map FSEntry.name).Nodup) (hex : ∃ x, x ∈ d ∧ x.name = n)
    (he : e ∈ removeFirst d n) : e.name ≠ n := by
  induction d with
  | nil => cases he
  | cons x xs ih =>
    simp only [removeFirst] at he
    simp only [List.map_cons, List.nodup_cons] at hnd
    by_cases hx : x.name = n
    · rw [if_pos hx] at he
      intro hcon
      exact hnd.1 (hx ▸ hcon ▸ List.mem_map_of_mem FSEntry.name he)
    · rw [if_neg hx] at he
      rcases List.mem_cons.mp he with rfl | h
      · exact hx
      · obtain ⟨y, hy, hyn⟩ := hex
        rcases List.mem_cons.mp hy with rfl | hy'
        · exact absurd hyn hx
        · exact ih hnd.2 ⟨y, hy', hyn⟩ h

theorem nodup_names_inj {d : Dir} (hnd : (d.map FSEntry.name).Nodup) :
    ∀ e₁, e₁ ∈ d → ∀ e₂, e₂ ∈ d → e₁.name = e₂.name → e₁ = e₂ := by
  intro e₁ h₁ e₂ h₂ hname
  exact List.inj_on_of_nodup_map hnd h₁ h₂ hname

theorem isdir_entry {d : Dir} {n : String} (h : FS.isdir (some d) n = true) :
    ∃ m cs, List.find? (fun e => decide (e.name = n)) d = some (FSEntry.dir m cs) := by
  simp only [FS.isdir] at h
  split at h
  · next heq => exact ⟨_, _, heq⟩
  · cases h

theorem isfile_entry {d : Dir} {n : String} (h : FS.isfile (some d) n = true) :
    ∃ m, List.find? (fun e => decide (e.name = n)) d = some (FSEntry.file m) := by
  simp only [FS.isfile] at h
  split at h
  · next heq => exact ⟨_, heq⟩
  · cases h

theorem existsRoot_false {d : Dir} {c : String} (h : FS.existsRoot (some d) c = false) :
    c ∉ d.map FSEntry.name := by
  intro hc
  obtain ⟨e, he, hen⟩ := List.mem_map.mp hc
  simp only [FS.existsRoot, List.any_eq_false] at h
  exact absurd (by simpa using hen) (h e he)

theorem isdir_true_of_mem {d : Dir} {n : String}
    (hn : n ∈ d.map FSEntry.name)
    (hfiles : ∀ e ∈ d, e.isFile = true → e.name = SCRIPT_NAME)
    (hns : n ≠ SCRIPT_NAME) : FS.isdir (some d) n = true := by
  obtain ⟨e, he, hen⟩ := List.mem_map.mp hn
  have hsome : (List.find? (fun e => decide (e.name = n)) d).isSome := by
    rw [List.find?_isSome]
    exact ⟨e, he, by simpa using hen⟩
  cases hfind : List.find? (fun e => decide (e.name = n)) d with
  | none => rw [hfind] at hsome; cases hsome
  | some e' =>
    have he'd : e' ∈ d := List.mem_of_find?_eq_some hfind
    have he'n : e'.name = n := by simpa using List.find?_some hfind
    cases e' with
    | file m =>
      exact absurd (he'n ▸ hfiles _ he'd rfl) hns
    | dir m cs =>
      simp [FS.isdir, hfind]

theorem organize_file_moved_shape {d : Dir} {n : String}
    (hscript : n ≠ SCRIPT_NAME) (hdir : FS.isdir (some d) n = false)
    (hkind : (organize_file (some d) n false).kind ≠ StepKind.moveFailed) :
    ∃ d₁ : Dir,
      (d₁ = d ∨ (d₁ = d ++ [FSEntry.dir (get_category_for_file n) []] ∧
        FS.existsRoot (some d) (get_category_for_file n) = false)) ∧
      FS.isfile (some d₁) n = true ∧
      (organize_file (some d) n false).fs =
        some (addFileInto (removeFirst d₁ n) (get_category_for_file n)
          (generate_unique_filename (FS.subNames (some d₁) (get_category_for_file n)) n)) := by
  have hdir' : ¬ FS.isdir (some d) n = true := by simp [hdir]
  by_cases hex : FS.existsRoot (some d) (get_category_for_file n) = true
  · have heval : organize_file (some d) n false =
        (match FS.moveIntoDir (some d) n (get_category_for_file n)
            (generate_unique_filename (FS.subNames (some d) (get_category_for_file n)) n) with
          | some fs₂ => (⟨true, fs₂, .movedOk⟩ : FileOut)
          | none => ⟨false, some d, .moveFailed⟩) := by
      simp [organize_file, if_neg hscript, if_neg hdir', if_pos hex]
    rw [heval] at hkind ⊢
    cases hmv : FS.moveIntoDir (some d) n (get_category_for_file n)
        (generate_unique_filename (FS.subNames (some d) (get_category_for_file n)) n) with
    | none => rw [hmv] at hkind; exact absurd rfl hkind
    | some fs₂ =>
      simp only [FS.moveIntoDir] at hmv
      split at hmv
      · next hguard =>
        have hfile : FS.isfile (some d) n = true := by
          simp only [Bool.and_eq_true] at hguard
          exact hguard.1
        cases hmv
        exact ⟨d, Or.inl rfl, hfile, rfl⟩
      · cases hmv
  · have hmk : FS.makedirs (some d) (get_category_for_file n) =
        some (d ++ [FSEntry.dir (get_category_for_file n) []]) := by
      simp [FS.makedirs, Option.getD]
    have heval : organize_file (some d) n false =
        (match FS.moveIntoDir (some (d ++ [FSEntry.dir (get_category_for_file n) []])) n
            (get_category_for_file n)
            (generate_unique_filename
              (FS.subNames (some (d ++ [FSEntry.dir (get_category_for_file n) []]))
                (get_category_for_file n)) n) with
          | some fs₂ => (⟨true, fs₂, .movedOk⟩ : FileOut)
          | none => ⟨false, some (d ++ [FSEntry.dir (get_category_for_file n) []]),
              .moveFailed⟩) := by
      simp [organize_file, if_neg hscript, if_neg hdir', if_neg hex, hmk]
    rw [heval] at hkind ⊢
    cases hmv : FS.moveIntoDir (some (d ++ [FSEntry.dir (get_category_for_file n) []])) n
        (get_category_for_file n)
        (generate_unique_filename
          (FS.subNames (some (d ++ [FSEntry.dir (get_category_for_file n) []]))
            (get_category_for_file n)) n) with
    | none => rw [hmv] at hkind; exact absurd rfl hkind
    | some fs₂ =>
      simp only [FS.moveIntoDir] at hmv
      split at hmv
      · next hguard =>
        have hfile : FS.isfile (some (d ++ [FSEntry.dir (get_category_for_file n) []])) n =
            true := by
          simp only [Bool.and_eq_true] at hguard
          exact hguard.1
        cases hmv
        exact ⟨d ++ [FSEntry.dir (get_category_for_file n) []],
          Or.inr ⟨rfl, Bool.eq_false_iff.mpr hex⟩, hfile, rfl⟩
      · cases hmv

theorem pass1_files : ∀ (L : List String) (acc : CliOut) (d : Dir),
    acc.fs = some d →
    (d.map FSEntry.name).Nodup →
    (∀ e ∈ d, e.isFile = true → e.name = SCRIPT_NAME ∨ e.name ∈ L) →
    (∀ q ∈ (L.foldl (cliStep false) acc).log, q.2 ≠ StepKind.moveFailed) →
    ∃ d', (L.foldl (cliStep false) acc).fs = some d' ∧
      (d'.map FSEntry.name).Nodup ∧
      ∀ e ∈ d', e.isFile = true → e.name = SCRIPT_NAME := by
  intro L
  induction L with
  | nil =>
    intro acc d hfs hnd hinv _
    refine ⟨d, hfs, hnd, fun e he hf => ?_⟩
    rcases hinv e he hf with h | h
    · exact h
    · cases h
  | cons n L ih =>
    intro acc d hfs hnd hinv hok
    rw [List.foldl_cons] at hok ⊢
    by_cases hscript : n = SCRIPT_NAME
    · have hstepfs : (cliStep false acc n).fs = some d := by
        simp [cliStep, organize_file, hscript, hfs]
      refine ih _ d hstepfs hnd ?_ hok
      intro e he hf
      rcases hinv e he hf with h | h
      · exact Or.inl h
      · rcases List.mem_cons.mp h with heq | h2
        · exact Or.inl (heq.trans hscript)
        · exact Or.inr h2
    · by_cases hdir : FS.isdir (some d) n = true
      · have hstepfs : (cliStep false acc n).fs = some d := by
          simp [cliStep, organize_file, hscript, hfs, hdir]
        refine ih _ d hstepfs hnd ?_ hok
        intro e he hf
        rcases hinv e he hf with h | h
        · exact Or.inl h
        · rcases List.mem_cons.mp h with heq | h2
          · obtain ⟨m, cs, hfind⟩ := isdir_entry hdir
            have hmem := List.mem_of_find?_eq_some hfind
            have hname : (FSEntry.dir m cs).name = n := by
              simpa using List.find?_some hfind
            have heq2 := nodup_names_inj hnd e he _ hmem (by rw [heq, hname])
            rw [heq2] at hf
            cases hf
          · exact Or.inr h2
      · have hkind : (organize_file (some d) n false).kind ≠ StepKind.moveFailed := by
          intro hcon
          have hlog : (n, (organize_file (some d) n false).kind) ∈
              (L.foldl (cliStep false) (cliStep false acc n)).log := by
            apply cli_foldl_log_mono
            have hshape : (cliStep false acc n).log =
                acc.log ++ [(n, (organize_file acc.fs n false).kind)] := rfl
            rw [hshape, hfs]
            exact List.mem_append.mpr (Or.inr (List.mem_singleton.mpr rfl))
          exact hok _ hlog hcon
        have hdirf : FS.isdir (some d) n = false := Bool.eq_false_iff.mpr hdir
        obtain ⟨d₁, hd₁, hfile₁, hfs₂⟩ := organize_file_moved_shape hscript hdirf hkind
        have hstepfs : (cliStep false acc n).fs =
            some (addFileInto (removeFirst d₁ n) (get_category_for_file n)
              (generate_unique_filename
                (FS.subNames (some d₁) (get_category_for_file n)) n)) := by
          have : (cliStep false acc n).fs = (organize_file acc.fs n false).fs := rfl
          rw [this, hfs, hfs₂]
        have hnd₁ : (d₁.map FSEntry.name).Nodup := by
          rcases hd₁ with rfl | ⟨rfl, hex⟩
          · exact hnd
          · rw [List.map_append, List.nodup_append]
            refine ⟨hnd, List.nodup_singleton _, ?_⟩
            intro a ha hb
            simp only [List.map_cons, List.map_nil, List.mem_singleton, FSEntry.name] at hb
            exact existsRoot_false hex (hb ▸ ha)
        have hmemd₁ : ∀ e, e ∈ d₁ → e.isFile = true → e ∈ d := by
          rcases hd₁ with rfl | ⟨rfl, _⟩
          · exact fun e he _ => he
          · intro e he hf
            rcases List.mem_append.mp he with h | h
            · exact h
            · rcases List.mem_singleton.mp h with rfl
              cases hf
        have hnames₂ : (addFileInto (removeFirst d₁ n) (get_category_for_file n)
            (generate_unique_filename
              (FS.subNames (some d₁) (get_category_for_file n)) n)).map FSEntry.name =
            (removeFirst d₁ n).map FSEntry.name := by
          apply names_modifyFirst
          intro x
          cases x <;> rfl
        have hnd₂ : ((addFileInto (removeFirst d₁ n) (get_category_for_file n)
            (generate_unique_filename
              (FS.subNames (some d₁) (get_category_for_file n)) n)).map FSEntry.name).Nodup := by
          rw [hnames₂]
          exact hnd₁.sublist ((removeFirst_sublist d₁ n).map FSEntry.name)
        refine ih _ _ hstepfs hnd₂ ?_ hok
        intro e he hf
        have he₁ : e ∈ removeFirst d₁ n := file_mem_addFileInto _ _ _ _ hf he
        have hne : e.name ≠ n := by
          apply name_ne_of_mem_removeFirst hnd₁ ?_ he₁
          obtain ⟨m, hfind⟩ := isfile_entry hfile₁
          exact ⟨_, List.mem_of_find?_eq_some hfind, by simpa using List.find?_some hfind⟩
        have hed : e ∈ d :=
          hmemd₁ e ((removeFirst_sublist d₁ n).subset he₁) hf
        rcases hinv e hed hf with h | h
        · exact Or.inl h
        · rcases List.mem_cons.mp h with heq | h2
          · exact absurd heq hne
          · exact Or.inr h2

theorem pass2_zero : ∀ (L : List String) (acc : CliOut) (d : Dir),
    acc.fs = some d →
    (∀ n ∈ L, n ∈ d.map FSEntry.name) →
    (∀ e ∈ d, e.isFile = true → e.name = SCRIPT_NAME) →
    (L.foldl (cliStep false) acc).count = acc.count := by
  intro L
  induction L with
  | nil => intro acc d _ _ _; rfl
  | cons n L ih =>
    intro acc d hfs hmem hfiles
    rw [List.foldl_cons]
    by_cases hscript : n = SCRIPT_NAME
    · have h1 : cliStep false acc n = ⟨acc.count, acc.fs, acc.log ++ [(n, .skipScript)]⟩ := by
        simp [cliStep, organize_file, hscript]
      rw [h1]
      exact ih _ d hfs (fun m hm => hmem m (List.mem_cons_of_mem _ hm)) hfiles
    · have hdir := isdir_true_of_mem (hmem n (List.mem_cons_self _ _)) hfiles hscript
      have h1 : cliStep false acc n = ⟨acc.count, acc.fs, acc.log ++ [(n, .skipDir)]⟩ := by
        simp [cliStep, organize_file, hscript, hfs, hdir]
      rw [h1]
      exact ih _ d hfs (fun m hm => hmem m (List.mem_cons_of_mem _ hm)) hfiles

/-- Claim C9, amended: when the root listing has no duplicate names and the
first pass records no move failure, a second pass performs zero moves — after
a failure-free pass the root holds only directories and (possibly) the script
file, both of which the scan skips.  When a move DOES fail (e.g. a plain file
occupies a category folder's name), the failed file stays at the root and a
second pass can move it, so the unconditional claim is false. -/
theorem C9_thm (fs : FS)
    (hnd : (FS.names fs).Nodup)
    (hok : ∀ q ∈ (organize_directory fs false).log, q.2 ≠ StepKind.moveFailed) :
    (organize_directory (organize_directory fs false).fs false).count = 0 := by
  cases fs with
  | none => rfl
  | some d =>
    obtain ⟨d', hfs', hnd', hfiles⟩ := pass1_files (d.map FSEntry.name) ⟨0, some d, []⟩ d
      rfl hnd (fun e he _ => Or.inr (List.mem_map_of_mem _ he)) hok
    have hpass1 : (organize_directory (some d) false).fs = some d' := hfs'
    rw [hpass1]
    exact pass2_zero (d'.map FSEntry.name) ⟨0, some d', []⟩ d' rfl (fun m hm => hm) hfiles

/-- Witness for C9 at a concrete state: one ordinary file, first pass
succeeds, second pass moves nothing. -/
theorem C9_wit :
    (FS.names (some [FSEntry.file "a.txt"])).Nodup ∧
    (∀ q ∈ (organize_directory (some [FSEntry.file "a.txt"]) false).log,
      q.2 ≠ StepKind.moveFailed) ∧
    (organize_directory
      (organize_directory (some [FSEntry.file "a.txt"]) false).fs false).count = 0 :=
  ⟨by decide, by decide, C9_thm (some [FSEntry.file "a.txt"]) (by decide) (by decide)⟩

/-- Counterexample to claim C9 as stated: with root files `photo.jpg` and
`Images` (a plain file occupying the category name), the first pass fails to
move `photo.jpg` (its destination parent is a file) while relocating the
`Images` file into `Others/`; the second pass, with no files added in
between, then creates `Images/` and performs one move — not zero. -/
theorem C9_cx :
    (organize_directory (organize_directory
        (some [FSEntry.file "photo.jpg", FSEntry.file "Images"]) false).fs false).count
      = 1 := by decide
